import Mathlib

/-!
Verification of the chunking engine of `repo_inspector`
(`src/repo_inspector/chunker.py` together with the `RepoFile` record from
`src/repo_inspector/loader.py`), shallowly embedded in Lean.

Python strings are modelled as Lean `String` (a list of characters), so
`len(s)` becomes `s.length`, `s.lower()` maps `Char.toLower` over the
characters, `p in s` is substring containment, `s.endswith(p)` is suffix
testing, and `path.split("/")` splits the character list on `'/'`.
`target_size` is a Python `int`, modelled as `Int`.
-/

/-- `RepoFile` dataclass from `loader.py`: path, content, extension. -/
structure RepoFile where
  path : String
  content : String
  extension : String
deriving DecidableEq

/-- `Chunk` dataclass from `chunker.py`: ordered files plus running byte total. -/
structure Chunk where
  files : List RepoFile := []
  total_size : Nat := 0
deriving DecidableEq

/-- `Chunk.add_file`: append the file and add `len(file.content)` to the total. -/
def Chunk.add_file (c : Chunk) (f : RepoFile) : Chunk :=
  { files := c.files ++ [f], total_size := c.total_size + f.content.length }

/-- A freshly constructed `Chunk()` with default fields. -/
def emptyChunk : Chunk := {}

/-- `TARGET_CHUNK_SIZE = 100 * 1024`, the default `target_size`. -/
def TARGET_CHUNK_SIZE : Int := 100 * 1024

/-- Python `str.split(sep)` for a one-character separator, on character lists:
`"".split -> [""]`, separators delimit (possibly empty) fields. -/
def splitOnChar (c : Char) : List Char → List (List Char)
  | [] => [[]]
  | x :: xs =>
    if x = c then [] :: splitOnChar c xs
    else
      match splitOnChar c xs with
      | [] => [[x]]
      | y :: ys => (x :: y) :: ys

/-- `path.split("/")` as a list of strings. -/
def splitPath (p : String) : List String :=
  (splitOnChar '/' p.data).map (fun l => String.mk l)

/-- `get_directory_group` from `chunker.py`: first path segment, or
`"__root__"` when the path has a single segment. -/
def get_directory_group (path : String) : String :=
  let parts := splitPath path
  if parts.length = 1 then "__root__" else parts.headD ""

/-- Python list/str prefix test on character lists. -/
def isPrefixCh : List Char → List Char → Bool
  | [], _ => true
  | _ :: _, [] => false
  | a :: as, b :: bs => a == b && isPrefixCh as bs

/-- Python `pat in hay` substring containment on character lists. -/
def containsSub (pat : List Char) : List Char → Bool
  | [] => List.isEmpty pat
  | x :: xs => isPrefixCh pat (x :: xs) || containsSub pat xs

/-- Python `s.lower()` (ASCII case mapping suffices for the paths involved). -/
def lowerStr (s : String) : String := String.mk (s.data.map Char.toLower)

/-- Python `s.endswith(pat)`. -/
def endsWithStr (s pat : String) : Bool := isPrefixCh pat.data.reverse s.data.reverse

/-- The tuple of entry-point names in `chunk_files`. -/
def entry_point_names : List String :=
  ["main.py", "app.py", "index.js", "index.ts", "main.go", "main.rs"]

/-- The entry-point clause of the priority test in `chunk_files`:
`f.path in ("main.py", "app.py", "index.js", "index.ts", "main.go", "main.rs")`,
an exact comparison of the full path. -/
def entryPointClause (path : String) : Bool := entry_point_names.contains path

/-- The priority test in `chunk_files` on the path: lower-cased path contains
`"readme"`, or the path is one of the entry-point names, or the lower-cased
path ends with `"__init__.py"`. -/
def is_priority_path (p : String) : Bool :=
  let name_lower := lowerStr p
  containsSub "readme".data name_lower.data || entryPointClause p
    || endsWithStr name_lower "__init__.py"

/-- The priority test in `chunk_files`, applied to a file's path. -/
def is_priority_file (f : RepoFile) : Bool := is_priority_path f.path

/-- One iteration of the priority packing loop in `chunk_files`: seal the
running chunk when adding `f` would exceed the target and the chunk is
non-empty, then add `f`. -/
def priorityStep (target : Int) (st : List Chunk × Chunk) (f : RepoFile) :
    List Chunk × Chunk :=
  if (st.2.total_size + f.content.length : Int) > target ∧ st.2.files ≠ [] then
    (st.1 ++ [st.2], emptyChunk.add_file f)
  else
    (st.1, st.2.add_file f)

/-- The priority packing phase of `chunk_files`: fold the loop over the
priority files and append the trailing non-empty chunk. -/
def packPriority (target : Int) (fs : List RepoFile) : List Chunk :=
  let st := fs.foldl (priorityStep target) ([], emptyChunk)
  if st.2.files ≠ [] then st.1 ++ [st.2] else st.1

/-- One iteration of the regular packing loop in `chunk_files`: an oversized
file seals the running chunk (when present and non-empty) and is emitted
alone; otherwise the running chunk is created on demand, sealed when the file
would not fit, and the file is added. -/
def regularStep (target : Int) (st : List Chunk × Option Chunk) (f : RepoFile) :
    List Chunk × Option Chunk :=
  if (f.content.length : Int) > target then
    match st.2 with
    | some c =>
      if c.files ≠ [] then (st.1 ++ [c] ++ [emptyChunk.add_file f], none)
      else (st.1 ++ [emptyChunk.add_file f], some c)
    | none => (st.1 ++ [emptyChunk.add_file f], none)
  else
    let c := st.2.getD emptyChunk
    if (c.total_size + f.content.length : Int) > target ∧ c.files ≠ [] then
      (st.1 ++ [c], some (emptyChunk.add_file f))
    else
      (st.1, some (c.add_file f))

/-- Python's `<` on strings, on character lists: lexicographic comparison of
code points, a proper prefix being smaller. -/
def ltCh : List Char → List Char → Bool
  | [], [] => false
  | [], _ :: _ => true
  | _ :: _, [] => false
  | a :: as, b :: bs =>
    if a.toNat < b.toNat then true
    else if b.toNat < a.toNat then false
    else ltCh as bs

/-- Python `s < t` for strings. -/
def strLt (s t : String) : Bool := ltCh s.data t.data

/-- Stable insertion of a file into a path-sorted list (ties keep earlier
elements first), realizing Python's stable `list.sort(key=path)`. -/
def insertByPath (f : RepoFile) : List RepoFile → List RepoFile
  | [] => [f]
  | g :: gs => if strLt f.path g.path then f :: g :: gs else g :: insertByPath f gs

/-- `group_files.sort(key=lambda f: f.path)`: stable sort by path. -/
def sortByPath (fs : List RepoFile) : List RepoFile :=
  fs.foldl (fun acc f => insertByPath f acc) []

/-- Sorted insertion of a group key. -/
def insertKey (k : String) : List String → List String
  | [] => [k]
  | g :: gs => if strLt k g then k :: g :: gs else g :: insertKey k gs

/-- `sorted(directory_groups.keys())`: the distinct keys in ascending order. -/
def sortKeys (ks : List String) : List String :=
  ks.foldl (fun acc k => insertKey k acc) []

/-- The keys of `directory_groups` in insertion order (first occurrence),
without duplicates. -/
def dedupKeys (fs : List RepoFile) : List String :=
  fs.foldl (fun acc f =>
    if acc.contains (get_directory_group f.path) then acc
    else acc ++ [get_directory_group f.path]) []

/-- The order in which the regular-file loops of `chunk_files` visit files:
directory groups in ascending key order, each group's files (in input order)
sorted by path. The two nested loops of the source thread the same
`(chunks, current_chunk)` state through every file, so packing is a single
fold over this flattened sequence. -/
def orderedRegulars (regular : List RepoFile) : List RepoFile :=
  (sortKeys (dedupKeys regular)).flatMap
    (fun k => sortByPath (regular.filter (fun f => get_directory_group f.path == k)))

/-- `chunk_files` from `chunker.py`: empty input short-circuits; files split
into priority and regular; priority files packed first; regular files grouped
by directory, visited in sorted order, and packed with a running chunk that
persists across group boundaries; the trailing chunk is appended when
non-empty. -/
def chunk_files (files : List RepoFile) (target_size : Int := TARGET_CHUNK_SIZE) :
    List Chunk :=
  if files.isEmpty then []
  else
    let priority_files := files.filter is_priority_file
    let regular_files := files.filter (fun f => !is_priority_file f)
    let pchunks := packPriority target_size priority_files
    let st :=
      (orderedRegulars regular_files).foldl (regularStep target_size) (pchunks, none)
    match st.2 with
    | some c => if c.files ≠ [] then st.1 ++ [c] else st.1
    | none => st.1

/-- The last path segment of a path (`path.split("/")[-1]`). -/
def filenameOf (path : String) : String := (splitPath path).getLastD ""

/-- Modelled from the spec: the entry-point rule as the spec's §6 words read
it — "exact-match, case-sensitive on the full filename", i.e. the last path
segment equals one of the entry-point names. Stated only to compare with the
source's `entryPointClause`, which compares the full path. -/
def entryPointClauseSpec (path : String) : Bool :=
  entry_point_names.contains (filenameOf path)

/-- The chunk `Chunk(); add_file(f)` consisting of `f` alone. -/
def singletonChunk (f : RepoFile) : Chunk := ⟨[f], f.content.length⟩

/-- The files of an optional running chunk (`current_chunk`). -/
def optFiles : Option Chunk → List RepoFile
  | none => []
  | some c => c.files

/-- The regular packing phase of `chunk_files` in isolation: fold the regular
loop over the flattened group-ordered files starting from an empty chunk list
and no running chunk, then append the trailing non-empty chunk. -/
def packRegular (t : Int) (fs : List RepoFile) : List Chunk :=
  let st := fs.foldl (regularStep t) ([], none)
  match st.2 with
  | some c => if c.files ≠ [] then st.1 ++ [c] else st.1
  | none => st.1

/-- A string of `n` copies of `'a'`, standing in for `n` bytes of content. -/
def mkContent (n : Nat) : String := String.mk (List.replicate n 'a')

/-- Invariant of every chunk the packing loops build: the recorded total is
the sum of the file sizes; a chunk with more than one file stays within the
target; a chunk containing an oversized file is a singleton. -/
def ChunkGood (t : Int) (c : Chunk) : Prop :=
  c.total_size = (c.files.map fun f => f.content.length).sum ∧
  (c.files.length ≤ 1 ∨ (c.total_size : Int) ≤ t) ∧
  (∀ f ∈ c.files, t < (f.content.length : Int) → c.files = [f])

theorem mkContent_length (n : Nat) : (mkContent n).length = n := by
  simp [mkContent, String.length]

theorem add_file_empty (f : RepoFile) : emptyChunk.add_file f = singletonChunk f := by
  simp [Chunk.add_file, emptyChunk, singletonChunk]

theorem foldl_insert_perm {α : Type} (ins : α → List α → List α)
    (h : ∀ x l, (ins x l).Perm (x :: l)) :
    ∀ (l acc : List α), (l.foldl (fun acc x => ins x acc) acc).Perm (acc ++ l) := by
  intro l
  induction l with
  | nil => intro acc; simp
  | cons x t ih =>
    intro acc
    have h1 : (t.foldl (fun acc x => ins x acc) (ins x acc)).Perm (ins x acc ++ t) := ih _
    have h2 : (ins x acc ++ t).Perm ((x :: acc) ++ t) := (h x acc).append_right t
    have h3 : ((x :: acc) ++ t).Perm (acc ++ x :: t) := by
      simpa using List.perm_middle.symm
    simpa [List.foldl_cons] using (h1.trans h2).trans h3

theorem insertByPath_perm (f : RepoFile) (l : List RepoFile) :
    (insertByPath f l).Perm (f :: l) := by
  induction l with
  | nil => simp [insertByPath]
  | cons g gs ih =>
    simp only [insertByPath]
    split
    · exact List.Perm.refl _
    · exact (ih.cons g).trans (List.Perm.swap f g gs)

theorem sortByPath_perm (l : List RepoFile) : (sortByPath l).Perm l := by
  simpa [sortByPath] using foldl_insert_perm insertByPath insertByPath_perm l []

theorem insertKey_perm (k : String) (l : List String) :
    (insertKey k l).Perm (k :: l) := by
  induction l with
  | nil => simp [insertKey]
  | cons g gs ih =>
    simp only [insertKey]
    split
    · exact List.Perm.refl _
    · exact (ih.cons g).trans (List.Perm.swap k g gs)

theorem sortKeys_perm (l : List String) : (sortKeys l).Perm l := by
  simpa [sortKeys] using foldl_insert_perm insertKey insertKey_perm l []

theorem dedupKeys_aux (fs : List RepoFile) :
    ∀ acc : List String,
      acc.Nodup →
      (fs.foldl (fun acc f =>
        if acc.contains (get_directory_group f.path) then acc
        else acc ++ [get_directory_group f.path]) acc).Nodup ∧
      (∀ k ∈ acc, k ∈ fs.foldl (fun acc f =>
        if acc.contains (get_directory_group f.path) then acc
        else acc ++ [get_directory_group f.path]) acc) ∧
      (∀ f ∈ fs, get_directory_group f.path ∈ fs.foldl (fun acc f =>
        if acc.contains (get_directory_group f.path) then acc
        else acc ++ [get_directory_group f.path]) acc) := by
  induction fs with
  | nil => intro acc h; exact ⟨h, fun k hk => hk, fun f hf => absurd hf (by simp)⟩
  | cons f t ih =>
    intro acc hacc
    simp only [List.foldl_cons]
    by_cases hc : acc.contains (get_directory_group f.path)
    · rw [if_pos hc]
      obtain ⟨h1, h2, h3⟩ := ih acc hacc
      refine ⟨h1, h2, ?_⟩
      intro g hg
      rcases List.mem_cons.mp hg with rfl | hg
      · exact h2 _ (by simpa using hc)
      · exact h3 _ hg
    · rw [if_neg hc]
      have hmem : get_directory_group f.path ∉ acc := by simpa using hc
      have hnd : (acc ++ [get_directory_group f.path]).Nodup := by
        simp [List.nodup_append, hacc, hmem]
      obtain ⟨h1, h2, h3⟩ := ih _ hnd
      refine ⟨h1, fun k hk => h2 _ (by simp [hk]), ?_⟩
      intro g hg
      rcases List.mem_cons.mp hg with rfl | hg
      · exact h2 _ (by simp)
      · exact h3 _ hg

theorem dedupKeys_nodup (fs : List RepoFile) : (dedupKeys fs).Nodup :=
  (dedupKeys_aux fs [] List.nodup_nil).1

theorem mem_dedupKeys (fs : List RepoFile) :
    ∀ f ∈ fs, get_directory_group f.path ∈ dedupKeys fs :=
  (dedupKeys_aux fs [] List.nodup_nil).2.2

theorem flatMap_congr_mem {α β : Type} {l : List α} {f g : α → List β}
    (h : ∀ x ∈ l, f x = g x) : l.flatMap f = l.flatMap g := by
  induction l with
  | nil => rfl
  | cons x t ih =>
    simp only [List.flatMap_cons]
    rw [h x (by simp), ih fun y hy => h y (by simp [hy])]

theorem flatMap_perm_of_perm {α β : Type} {l : List α} {f g : α → List β}
    (h : ∀ x ∈ l, (f x).Perm (g x)) : (l.flatMap f).Perm (l.flatMap g) := by
  induction l with
  | nil => simp
  | cons x t ih =>
    simp only [List.flatMap_cons]
    exact (h x (by simp)).append (ih fun y hy => h y (by simp [hy]))

theorem partition_filter_perm {α : Type} (grp : α → String) :
    ∀ (keys : List String) (l : List α), keys.Nodup → (∀ x ∈ l, grp x ∈ keys) →
      (keys.flatMap fun k => l.filter fun x => grp x == k).Perm l := by
  intro keys
  induction keys with
  | nil =>
    intro l _ hcov
    cases l with
    | nil => simp
    | cons a t => exact absurd (hcov a (by simp)) (by simp)
  | cons k ks ih =>
    intro l hnd hcov
    have hk : k ∉ ks := (List.nodup_cons.mp hnd).1
    have hstep : ∀ k' ∈ ks,
        l.filter (fun x => grp x == k') =
          (l.filter fun x => !(grp x == k)).filter (fun x => grp x == k') := by
      intro k' hk'
      rw [List.filter_filter]
      refine (List.filter_congr ?_).symm
      intro x _
      cases hx : grp x == k' with
      | false => simp
      | true =>
        have : grp x = k' := by simpa using hx
        have : ¬(grp x == k) = true := by
          simp [this]
          intro hkk
          exact hk (hkk ▸ hk')
        simp_all
    have hcov' : ∀ x ∈ (l.filter fun x => !(grp x == k)), grp x ∈ ks := by
      intro x hx
      have h1 := List.mem_filter.mp hx
      have h2 := hcov x h1.1
      have h3 : ¬(grp x = k) := by simpa using h1.2
      rcases List.mem_cons.mp h2 with h2 | h2
      · exact absurd h2 h3
      · exact h2
    have ihp := ih (l.filter fun x => !(grp x == k)) (List.nodup_cons.mp hnd).2 hcov'
    have heq : ((k :: ks).flatMap fun k => l.filter fun x => grp x == k)
        = (l.filter fun x => grp x == k) ++
            (ks.flatMap fun k' => (l.filter fun x => !(grp x == k)).filter
              fun x => grp x == k') := by
      rw [List.flatMap_cons]
      congr 1
      exact flatMap_congr_mem hstep
    rw [heq]
    exact (List.Perm.append_left _ ihp).trans (List.filter_append_perm _ l)

theorem orderedRegulars_perm (l : List RepoFile) : (orderedRegulars l).Perm l := by
  have hnd : (sortKeys (dedupKeys l)).Nodup :=
    ((sortKeys_perm (dedupKeys l)).nodup_iff).mpr (dedupKeys_nodup l)
  have hcov : ∀ f ∈ l, get_directory_group f.path ∈ sortKeys (dedupKeys l) := by
    intro f hf
    exact ((sortKeys_perm (dedupKeys l)).mem_iff).mpr (mem_dedupKeys l f hf)
  have h1 : (orderedRegulars l).Perm
      ((sortKeys (dedupKeys l)).flatMap fun k =>
        l.filter fun f => get_directory_group f.path == k) := by
    unfold orderedRegulars
    exact flatMap_perm_of_perm fun k _ => sortByPath_perm _
  exact h1.trans (partition_filter_perm (fun f => get_directory_group f.path) _ l hnd hcov)

theorem priority_foldl_flat (t : Int) :
    ∀ (fs : List RepoFile) (init : List Chunk) (cur : Chunk),
      (fs.foldl (priorityStep t) (init, cur)).1.flatMap Chunk.files ++
        (fs.foldl (priorityStep t) (init, cur)).2.files =
      init.flatMap Chunk.files ++ cur.files ++ fs := by
  intro fs
  induction fs with
  | nil => intro init cur; simp
  | cons f rest ih =>
    intro init cur
    simp only [List.foldl_cons, priorityStep]
    split
    · rw [ih]
      simp [Chunk.add_file, emptyChunk]
    · rw [ih]
      simp [Chunk.add_file]

theorem packPriority_flat (t : Int) (fs : List RepoFile) :
    (packPriority t fs).flatMap Chunk.files = fs := by
  simp only [packPriority]
  have h := priority_foldl_flat t fs [] emptyChunk
  have he : emptyChunk.files = [] := rfl
  rw [he] at h
  simp only [List.flatMap_nil, List.nil_append] at h
  split
  · simpa using h
  · rename_i hne
    have h2 : (fs.foldl (priorityStep t) ([], emptyChunk)).2.files = [] := by
      by_contra hc
      exact hne hc
    rw [h2, List.append_nil] at h
    exact h

theorem singleton_good (t : Int) (f : RepoFile) : ChunkGood t (singletonChunk f) := by
  refine ⟨by simp [singletonChunk], Or.inl (by simp [singletonChunk]), ?_⟩
  intro g hg _
  simp only [singletonChunk, List.mem_singleton] at hg
  simp [singletonChunk, hg]

theorem empty_good (t : Int) : ChunkGood t emptyChunk := by
  refine ⟨by simp [emptyChunk], Or.inl (by simp [emptyChunk]), ?_⟩
  intro g hg
  simp [emptyChunk] at hg

theorem add_file_good {t : Int} {c : Chunk} {f : RepoFile}
    (hg : ChunkGood t c)
    (hfit : ¬((c.total_size + f.content.length : Int) > t ∧ c.files ≠ [])) :
    ChunkGood t (c.add_file f) := by
  obtain ⟨hsum, _, _⟩ := hg
  by_cases hne : c.files = []
  · have h0 : c.total_size = 0 := by rw [hsum, hne]; simp
    refine ⟨by simp [Chunk.add_file, hsum], Or.inl (by simp [Chunk.add_file, hne]), ?_⟩
    intro g hgmem _
    simp only [Chunk.add_file, hne, List.nil_append, List.mem_singleton] at hgmem ⊢
    simp [hgmem]
  · have hle : (c.total_size + f.content.length : Int) ≤ t := by
      rcases not_and_or.mp hfit with h | h
      · omega
      · exact absurd hne (by simpa using h)
    refine ⟨by simp [Chunk.add_file, hsum], Or.inr (by push_cast [Chunk.add_file]; omega), ?_⟩
    intro g hgmem hbig
    exfalso
    simp only [Chunk.add_file, List.mem_append, List.mem_singleton] at hgmem
    rcases hgmem with hgmem | rfl
    · have : g.content.length ≤ c.total_size := by
        rw [hsum]
        exact List.le_sum_of_mem (List.mem_map_of_mem _ hgmem)
      have : (g.content.length : Int) ≤ (c.total_size : Int) := by exact_mod_cast this
      omega
    · omega

theorem priority_foldl_good (t : Int) :
    ∀ (fs : List RepoFile) (init : List Chunk) (cur : Chunk),
      (∀ c ∈ init, ChunkGood t c) → ChunkGood t cur →
      (∀ c ∈ (fs.foldl (priorityStep t) (init, cur)).1, ChunkGood t c) ∧
        ChunkGood t (fs.foldl (priorityStep t) (init, cur)).2 := by
  intro fs
  induction fs with
  | nil => intro init cur h1 h2; exact ⟨h1, h2⟩
  | cons f rest ih =>
    intro init cur h1 h2
    simp only [List.foldl_cons, priorityStep]
    split
    · refine ih _ _ ?_ ?_
      · intro c hc
        rcases List.mem_append.mp hc with hc | hc
        · exact h1 c hc
        · rw [List.mem_singleton.mp hc]; exact h2
      · rw [add_file_empty]; exact singleton_good t f
    · rename_i hcond
      exact ih _ _ h1 (add_file_good h2 hcond)

theorem packPriority_good (t : Int) (fs : List RepoFile) :
    ∀ c ∈ packPriority t fs, ChunkGood t c := by
  simp only [packPriority]
  obtain ⟨h1, h2⟩ :=
    priority_foldl_good t fs [] emptyChunk (by simp) (empty_good t)
  split
  · intro c hc
    rcases List.mem_append.mp hc with hc | hc
    · exact h1 c hc
    · rw [List.mem_singleton.mp hc]; exact h2
  · exact h1

theorem regular_foldl_flat (t : Int) :
    ∀ (fs : List RepoFile) (init : List Chunk) (cur : Option Chunk),
      (fs.foldl (regularStep t) (init, cur)).1.flatMap Chunk.files ++
        optFiles (fs.foldl (regularStep t) (init, cur)).2 =
      init.flatMap Chunk.files ++ optFiles cur ++ fs := by
  intro fs
  induction fs with
  | nil => intro init cur; simp
  | cons f rest ih =>
    intro init cur
    cases cur with
    | none =>
      by_cases hov : (f.content.length : Int) > t
      · simp only [List.foldl_cons, regularStep, hov, if_true]
        rw [ih]
        simp [add_file_empty, singletonChunk, optFiles]
      · simp only [List.foldl_cons, regularStep, hov, if_false, Option.getD_none]
        have hcond : ¬((emptyChunk.total_size + f.content.length : Int) > t ∧
            emptyChunk.files ≠ []) := by
          intro h
          exact h.2 rfl
        rw [if_neg hcond, ih]
        simp [optFiles, Chunk.add_file, emptyChunk]
    | some c =>
      by_cases hov : (f.content.length : Int) > t
      · by_cases hne : c.files = []
        · simp only [List.foldl_cons, regularStep, hov, if_true]
          rw [if_neg (by simpa using hne), ih]
          simp [add_file_empty, singletonChunk, optFiles, hne]
        · simp only [List.foldl_cons, regularStep, hov, if_true]
          rw [if_pos (by simpa using hne), ih]
          simp [add_file_empty, singletonChunk, optFiles]
      · simp only [List.foldl_cons, regularStep, hov, if_false, Option.getD_some]
        by_cases hseal : ((c.total_size + f.content.length : Int) > t ∧ c.files ≠ [])
        · rw [if_pos hseal, ih]
          simp [optFiles, add_file_empty, singletonChunk]
        · rw [if_neg hseal, ih]
          simp [optFiles, Chunk.add_file]

theorem optGood_getD {t : Int} {cur : Option Chunk}
    (h : ∀ c, cur = some c → ChunkGood t c) : ChunkGood t (cur.getD emptyChunk) := by
  cases cur with
  | none => exact empty_good t
  | some c => exact h c rfl

theorem regular_foldl_good (t : Int) :
    ∀ (fs : List RepoFile) (init : List Chunk) (cur : Option Chunk),
      (∀ c ∈ init, ChunkGood t c) → (∀ c, cur = some c → ChunkGood t c) →
      (∀ c ∈ (fs.foldl (regularStep t) (init, cur)).1, ChunkGood t c) ∧
        (∀ c, (fs.foldl (regularStep t) (init, cur)).2 = some c → ChunkGood t c) := by
  intro fs
  induction fs with
  | nil => intro init cur h1 h2; exact ⟨h1, h2⟩
  | cons f rest ih =>
    intro init cur h1 h2
    cases cur with
    | none =>
      by_cases hov : (f.content.length : Int) > t
      · simp only [List.foldl_cons, regularStep, hov, if_true]
        refine ih _ _ ?_ (by intro c hc; cases hc)
        intro c hc
        rcases List.mem_append.mp hc with hc | hc
        · exact h1 c hc
        · rw [List.mem_singleton.mp hc, add_file_empty]
          exact singleton_good t f
      · simp only [List.foldl_cons, regularStep, hov, if_false, Option.getD_none]
        have hcond : ¬((emptyChunk.total_size + f.content.length : Int) > t ∧
            emptyChunk.files ≠ []) := by
          intro h
          exact h.2 rfl
        rw [if_neg hcond]
        refine ih _ _ h1 ?_
        intro c hc
        rw [← Option.some.injEq _ _ |>.mp hc]
        exact add_file_good (empty_good t) hcond
    | some c0 =>
      have hc0 : ChunkGood t c0 := h2 c0 rfl
      by_cases hov : (f.content.length : Int) > t
      · by_cases hne : c0.files = []
        · simp only [List.foldl_cons, regularStep, hov, if_true]
          rw [if_neg (by simpa using hne)]
          refine ih _ _ ?_ ?_
          · intro c hc
            rcases List.mem_append.mp hc with hc | hc
            · exact h1 c hc
            · rw [List.mem_singleton.mp hc, add_file_empty]
              exact singleton_good t f
          · intro c hc
            rw [← Option.some.injEq _ _ |>.mp hc]
            exact hc0
        · simp only [List.foldl_cons, regularStep, hov, if_true]
          rw [if_pos (by simpa using hne)]
          refine ih _ _ ?_ (by intro c hc; cases hc)
          intro c hc
          rcases List.mem_append.mp hc with hc | hc
          · rcases List.mem_append.mp hc with hc | hc
            · exact h1 c hc
            · rw [List.mem_singleton.mp hc]; exact hc0
          · rw [List.mem_singleton.mp hc, add_file_empty]
            exact singleton_good t f
      · simp only [List.foldl_cons, regularStep, hov, if_false, Option.getD_some]
        by_cases hseal : ((c0.total_size + f.content.length : Int) > t ∧ c0.files ≠ [])
        · rw [if_pos hseal]
          refine ih _ _ ?_ ?_
          · intro c hc
            rcases List.mem_append.mp hc with hc | hc
            · exact h1 c hc
            · rw [List.mem_singleton.mp hc]; exact hc0
          · intro c hc
            rw [← Option.some.injEq _ _ |>.mp hc, add_file_empty]
            exact singleton_good t f
        · rw [if_neg hseal]
          refine ih _ _ h1 ?_
          intro c hc
          rw [← Option.some.injEq _ _ |>.mp hc]
          exact add_file_good hc0 hseal

theorem priority_foldl_shift (t : Int) :
    ∀ (fs : List RepoFile) (init : List Chunk) (cur : Chunk),
      fs.foldl (priorityStep t) (init, cur) =
        (init ++ (fs.foldl (priorityStep t) ([], cur)).1,
          (fs.foldl (priorityStep t) ([], cur)).2) := by
  intro fs
  induction fs with
  | nil => intro init cur; simp
  | cons f rest ih =>
    intro init cur
    simp only [List.foldl_cons, priorityStep]
    split
    · rw [ih (init ++ [cur]), ih ([] ++ [cur])]
      simp
    · exact ih init _

theorem regular_foldl_shift (t : Int) :
    ∀ (fs : List RepoFile) (init : List Chunk) (cur : Option Chunk),
      fs.foldl (regularStep t) (init, cur) =
        (init ++ (fs.foldl (regularStep t) ([], cur)).1,
          (fs.foldl (regularStep t) ([], cur)).2) := by
  intro fs
  induction fs with
  | nil => intro init cur; simp
  | cons f rest ih =>
    intro init cur
    cases cur with
    | none =>
      by_cases hov : (f.content.length : Int) > t
      · simp only [List.foldl_cons, regularStep, hov, if_true]
        rw [ih (init ++ [emptyChunk.add_file f]), ih ([] ++ [emptyChunk.add_file f])]
        simp
      · simp only [List.foldl_cons, regularStep, hov, if_false, Option.getD_none]
        have hcond : ¬((emptyChunk.total_size + f.content.length : Int) > t ∧
            emptyChunk.files ≠ []) := by
          intro h
          exact h.2 rfl
        rw [if_neg hcond, if_neg hcond]
        exact ih init _
    | some c =>
      by_cases hov : (f.content.length : Int) > t
      · by_cases hne : c.files = []
        · simp only [List.foldl_cons, regularStep, hov, if_true]
          rw [if_neg (by simpa using hne), if_neg (by simpa using hne)]
          rw [ih (init ++ [emptyChunk.add_file f]), ih ([] ++ [emptyChunk.add_file f])]
          simp
        · simp only [List.foldl_cons, regularStep, hov, if_true]
          rw [if_pos (by simpa using hne), if_pos (by simpa using hne)]
          rw [ih (init ++ [c] ++ [emptyChunk.add_file f]),
            ih ([] ++ [c] ++ [emptyChunk.add_file f])]
          simp
      · simp only [List.foldl_cons, regularStep, hov, if_false, Option.getD_some]
        by_cases hseal : ((c.total_size + f.content.length : Int) > t ∧ c.files ≠ [])
        · rw [if_pos hseal, if_pos hseal]
          rw [ih (init ++ [c]), ih ([] ++ [c])]
          simp
        · rw [if_neg hseal, if_neg hseal]
          exact ih init _

theorem chunk_files_flat (files : List RepoFile) (t : Int) :
    (chunk_files files t).flatMap Chunk.files =
      files.filter is_priority_file ++
        orderedRegulars (files.filter fun f => !is_priority_file f) := by
  simp only [chunk_files]
  split
  · rename_i hemp
    have : files = [] := by simpa [List.isEmpty_iff] using hemp
    subst this
    simp [orderedRegulars, dedupKeys, sortKeys]
  · have h := regular_foldl_flat t (orderedRegulars (files.filter fun f => !is_priority_file f))
      (packPriority t (files.filter is_priority_file)) none
    simp only [optFiles, List.append_nil] at h
    split
    · rename_i c hsome
      split
      · rw [List.flatMap_append]
        rw [hsome] at h
        simp only [optFiles] at h
        rw [show ([c].flatMap Chunk.files) = c.files by simp]
        rw [h, packPriority_flat]
      · rename_i hne
        have hcf : c.files = [] := not_not.mp (by simpa using hne)
        rw [hsome] at h
        simp only [optFiles, hcf, List.append_nil] at h
        rw [h, packPriority_flat]
    · rename_i hnone
      rw [hnone] at h
      simp only [optFiles, List.append_nil] at h
      rw [h, packPriority_flat]

theorem chunk_files_eq (files : List RepoFile) (t : Int) :
    chunk_files files t =
      packPriority t (files.filter is_priority_file) ++
        packRegular t (orderedRegulars (files.filter fun f => !is_priority_file f)) := by
  simp only [chunk_files, packRegular]
  split
  · rename_i hemp
    have : files = [] := by simpa [List.isEmpty_iff] using hemp
    subst this
    rfl
  · rw [regular_foldl_shift t _ (packPriority t (files.filter is_priority_file)) none]
    cases hsome : (List.foldl (regularStep t) ([], none)
        (orderedRegulars (files.filter fun f => !is_priority_file f))).2 with
    | none => simp [hsome]
    | some c =>
      by_cases hcf : c.files = []
      · simp [hsome, hcf]
      · simp [hsome, hcf]

theorem packRegular_flat (t : Int) (fs : List RepoFile) :
    (packRegular t fs).flatMap Chunk.files = fs := by
  simp only [packRegular]
  have h := regular_foldl_flat t fs [] none
  simp only [optFiles, List.flatMap_nil, List.nil_append, List.append_nil] at h
  split
  · rename_i c hsome
    rw [hsome] at h
    simp only [optFiles] at h
    split
    · simpa using h
    · rename_i hne
      have hcf : c.files = [] := not_not.mp (by simpa using hne)
      rw [hcf, List.append_nil] at h
      exact h
  · rename_i hnone
    rw [hnone] at h
    simp only [optFiles, List.append_nil] at h
    exact h

theorem packRegular_good (t : Int) (fs : List RepoFile) :
    ∀ c ∈ packRegular t fs, ChunkGood t c := by
  simp only [packRegular]
  obtain ⟨h1, h2⟩ :=
    regular_foldl_good t fs [] none (by intro c hc; exact absurd hc (List.not_mem_nil c))
      (by intro c hc; cases hc)
  split
  · rename_i c hsome
    split
    · intro d hd
      rcases List.mem_append.mp hd with hd | hd
      · exact h1 d hd
      · rw [List.mem_singleton.mp hd]
        exact h2 c hsome
    · exact h1
  · exact h1

theorem chunk_files_good (files : List RepoFile) (t : Int) :
    ∀ c ∈ chunk_files files t, ChunkGood t c := by
  rw [chunk_files_eq]
  intro c hc
  rcases List.mem_append.mp hc with hc | hc
  · exact packPriority_good t _ c hc
  · exact packRegular_good t _ c hc

theorem chunk_files_perm (files : List RepoFile) (t : Int) :
    ((chunk_files files t).flatMap Chunk.files).Perm files := by
  rw [chunk_files_flat]
  have h1 : (orderedRegulars (files.filter fun f => !is_priority_file f)).Perm
      (files.filter fun f => !is_priority_file f) := orderedRegulars_perm _
  exact (h1.append_left (files.filter is_priority_file)).trans
    (List.filter_append_perm _ files)

theorem chunk_files_split (files : List RepoFile) (t : Int) :
    ∃ A B, chunk_files files t = A ++ B ∧
      (∀ c ∈ A, ∀ f ∈ c.files, is_priority_file f = true) ∧
      (∀ c ∈ B, ∀ f ∈ c.files, is_priority_file f = false) := by
  refine ⟨packPriority t (files.filter is_priority_file),
    packRegular t (orderedRegulars (files.filter fun f => !is_priority_file f)),
    chunk_files_eq files t, ?_, ?_⟩
  · intro c hc f hf
    have hmem : f ∈ (packPriority t (files.filter is_priority_file)).flatMap Chunk.files :=
      List.mem_flatMap.mpr ⟨c, hc, hf⟩
    rw [packPriority_flat] at hmem
    exact List.of_mem_filter hmem
  · intro c hc f hf
    have hmem : f ∈ (packRegular t
        (orderedRegulars (files.filter fun f => !is_priority_file f))).flatMap Chunk.files :=
      List.mem_flatMap.mpr ⟨c, hc, hf⟩
    rw [packRegular_flat] at hmem
    have : f ∈ files.filter fun f => !is_priority_file f :=
      ((orderedRegulars_perm _).mem_iff).mp hmem
    simpa using List.of_mem_filter this

theorem priority_neg_aux (t : Int) (ht : t ≤ 0) :
    ∀ (fs : List RepoFile), (∀ f ∈ fs, 0 < f.content.length) →
      ∀ (init : List Chunk) (cur : Chunk), cur.files ≠ [] →
      (if (fs.foldl (priorityStep t) (init, cur)).2.files ≠ [] then
          (fs.foldl (priorityStep t) (init, cur)).1 ++
            [(fs.foldl (priorityStep t) (init, cur)).2]
        else (fs.foldl (priorityStep t) (init, cur)).1) =
      init ++ [cur] ++ fs.map singletonChunk := by
  intro fs
  induction fs with
  | nil =>
    intro _ init cur hcur
    simp [hcur]
  | cons f rest ih =>
    intro hpos init cur hcur
    have hsz : 0 < f.content.length := hpos f (by simp)
    have hcond : (cur.total_size + f.content.length : Int) > t ∧ cur.files ≠ [] := by
      refine ⟨?_, hcur⟩
      have h1 : (1 : Int) ≤ (f.content.length : Int) := by exact_mod_cast hsz
      have h2 : (0 : Int) ≤ (cur.total_size : Int) := Int.ofNat_nonneg _
      omega
    simp only [List.foldl_cons, priorityStep, if_pos hcond]
    rw [ih (fun g hg => hpos g (by simp [hg])) (init ++ [cur]) (emptyChunk.add_file f)
      (by simp [add_file_empty, singletonChunk])]
    simp [add_file_empty]

theorem packPriority_neg (t : Int) (ht : t ≤ 0) (fs : List RepoFile)
    (hpos : ∀ f ∈ fs, 0 < f.content.length) :
    packPriority t fs = fs.map singletonChunk := by
  cases fs with
  | nil => rfl
  | cons f rest =>
    simp only [packPriority, List.foldl_cons, priorityStep]
    have hcond : ¬((emptyChunk.total_size + f.content.length : Int) > t ∧
        emptyChunk.files ≠ []) := fun h => h.2 rfl
    rw [if_neg hcond]
    have h := priority_neg_aux t ht rest (fun g hg => hpos g (by simp [hg])) []
      (emptyChunk.add_file f) (by simp [add_file_empty, singletonChunk])
    simpa [add_file_empty] using h

theorem regular_neg_aux (t : Int) (ht : t ≤ 0) :
    ∀ (fs : List RepoFile), (∀ f ∈ fs, 0 < f.content.length) →
      ∀ (init : List Chunk),
      fs.foldl (regularStep t) (init, none) = (init ++ fs.map singletonChunk, none) := by
  intro fs
  induction fs with
  | nil => intro _ init; simp
  | cons f rest ih =>
    intro hpos init
    have hsz : 0 < f.content.length := hpos f (by simp)
    have hov : (f.content.length : Int) > t := by
      have h1 : (1 : Int) ≤ (f.content.length : Int) := by exact_mod_cast hsz
      omega
    simp only [List.foldl_cons, regularStep, hov, if_true]
    rw [ih (fun g hg => hpos g (by simp [hg])) (init ++ [emptyChunk.add_file f])]
    simp [add_file_empty]

theorem packRegular_neg (t : Int) (ht : t ≤ 0) (fs : List RepoFile)
    (hpos : ∀ f ∈ fs, 0 < f.content.length) :
    packRegular t fs = fs.map singletonChunk := by
  simp only [packRegular]
  rw [regular_neg_aux t ht fs hpos []]
  simp

/-- C1: for every input list and every positive target size, the multiset of
files across all chunks returned by `chunk_files` equals exactly the input
list — the concatenation of the chunks' file lists is a permutation of the
input, so no file is dropped and none is duplicated. -/
theorem chunk_files_complete (files : List RepoFile) (target_size : Int)
    (h : 0 < target_size) :
    ((chunk_files files target_size).flatMap Chunk.files).Perm files :=
  chunk_files_perm files target_size

theorem chunk_files_complete_witness :
    (0 : Int) < 10 ∧
      ((chunk_files [⟨"a.py", "x", ".py"⟩] 10).flatMap Chunk.files).Perm
        [⟨"a.py", "x", ".py"⟩] :=
  ⟨by decide, chunk_files_complete [⟨"a.py", "x", ".py"⟩] 10 (by decide)⟩

/-- C2: for every input list and every positive target size, every chunk
returned by `chunk_files` that contains more than one file has
`total_size <= target_size`. -/
theorem chunk_files_size_bound (files : List RepoFile) (target_size : Int)
    (h : 0 < target_size) (c : Chunk) (hc : c ∈ chunk_files files target_size)
    (hlen : 1 < c.files.length) : (c.total_size : Int) ≤ target_size := by
  obtain ⟨_, h2, _⟩ := chunk_files_good files target_size c hc
  rcases h2 with h2 | h2
  · omega
  · exact h2

theorem chunk_files_size_bound_witness :
    (0 : Int) < 10 ∧
      (⟨[⟨"a.py", "x", ".py"⟩, ⟨"b.py", "y", ".py"⟩], 2⟩ : Chunk) ∈
        chunk_files [⟨"a.py", "x", ".py"⟩, ⟨"b.py", "y", ".py"⟩] 10 ∧
      1 < ([⟨"a.py", "x", ".py"⟩, ⟨"b.py", "y", ".py"⟩] : List RepoFile).length ∧
      (((⟨[⟨"a.py", "x", ".py"⟩, ⟨"b.py", "y", ".py"⟩], 2⟩ : Chunk).total_size : Int)) ≤ 10 :=
  ⟨by decide, by decide, by decide,
    chunk_files_size_bound [⟨"a.py", "x", ".py"⟩, ⟨"b.py", "y", ".py"⟩] 10 (by decide)
      ⟨[⟨"a.py", "x", ".py"⟩, ⟨"b.py", "y", ".py"⟩], 2⟩ (by decide) (by decide)⟩

/-- C3: for every input list and every positive target size, any file whose
own content length exceeds the target appears alone: every chunk of
`chunk_files` that contains such a file is the singleton chunk of that file.
This covers priority files (where only the sealing rule isolates them) and
regular files (where the explicit oversized branch does). -/
theorem chunk_files_oversized_isolated (files : List RepoFile) (target_size : Int)
    (h : 0 < target_size) (c : Chunk) (hc : c ∈ chunk_files files target_size)
    (f : RepoFile) (hf : f ∈ c.files)
    (hbig : target_size < (f.content.length : Int)) : c.files = [f] := by
  obtain ⟨_, _, h3⟩ := chunk_files_good files target_size c hc
  exact h3 f hf hbig

theorem chunk_files_oversized_isolated_witness :
    (0 : Int) < 1 ∧
      (⟨[⟨"a.py", "xy", ".py"⟩], 2⟩ : Chunk) ∈ chunk_files [⟨"a.py", "xy", ".py"⟩] 1 ∧
      (⟨"a.py", "xy", ".py"⟩ : RepoFile) ∈ [(⟨"a.py", "xy", ".py"⟩ : RepoFile)] ∧
      (1 : Int) < ((⟨"a.py", "xy", ".py"⟩ : RepoFile).content.length : Int) ∧
      [(⟨"a.py", "xy", ".py"⟩ : RepoFile)] = [⟨"a.py", "xy", ".py"⟩] :=
  ⟨by decide, by decide, by decide, by decide,
    chunk_files_oversized_isolated [⟨"a.py", "xy", ".py"⟩] 1 (by decide)
      ⟨[⟨"a.py", "xy", ".py"⟩], 2⟩ (by decide) ⟨"a.py", "xy", ".py"⟩ (by decide) (by decide)⟩

/-- C4: for every input list and every positive target size, the output of
`chunk_files` splits as a block of chunks holding only priority files
followed by a block holding only regular files, so every chunk containing a
priority file precedes every chunk containing a regular file. -/
theorem chunk_files_priority_precedes (files : List RepoFile) (target_size : Int)
    (h : 0 < target_size) :
    ∃ A B, chunk_files files target_size = A ++ B ∧
      (∀ c ∈ A, ∀ f ∈ c.files, is_priority_file f = true) ∧
      (∀ c ∈ B, ∀ f ∈ c.files, is_priority_file f = false) :=
  chunk_files_split files target_size

theorem chunk_files_priority_precedes_witness :
    (0 : Int) < 10 ∧
      ∃ A B, chunk_files [⟨"README.md", "r", ".md"⟩, ⟨"a.py", "x", ".py"⟩] 10 = A ++ B ∧
        (∀ c ∈ A, ∀ f ∈ c.files, is_priority_file f = true) ∧
        (∀ c ∈ B, ∀ f ∈ c.files, is_priority_file f = false) :=
  ⟨by decide,
    chunk_files_priority_precedes [⟨"README.md", "r", ".md"⟩, ⟨"a.py", "x", ".py"⟩] 10
      (by decide)⟩

/-- Evaluation of `chunk_files` on Scenario A inputs: a 500-byte `README.md`
(priority) and a 2000-byte `src/app.py` (regular) with target 1,000,000
produce two chunks — the priority chunk is sealed before regular packing
starts, so the files are never merged into one chunk. -/
theorem scenarioA_eval (cr ca : String) (hr : cr.length = 500) (ha : ca.length = 2000) :
    chunk_files [⟨"README.md", cr, ".md"⟩, ⟨"src/app.py", ca, ".py"⟩] 1000000 =
      [⟨[⟨"README.md", cr, ".md"⟩], 500⟩, ⟨[⟨"src/app.py", ca, ".py"⟩], 2000⟩] := by
  have h1 : is_priority_path "README.md" = true := by decide
  have h2 : is_priority_path "src/app.py" = false := by decide
  have h3 : get_directory_group "src/app.py" = "src" := by decide
  simp [chunk_files, is_priority_file, h1, h2, h3, List.filter, packPriority,
    priorityStep, Chunk.add_file, emptyChunk, orderedRegulars, dedupKeys, sortKeys,
    insertKey, sortByPath, insertByPath, regularStep, hr, ha]

/-- C5 (counterexample): on Scenario A's input, `chunk_files` returns two
chunks, not the single combined chunk the claim describes. -/
theorem scenarioA_not_one_chunk :
    (chunk_files [⟨"README.md", mkContent 500, ".md"⟩,
      ⟨"src/app.py", mkContent 2000, ".py"⟩] 1000000).length = 2 := by
  rw [scenarioA_eval (mkContent 500) (mkContent 2000) (mkContent_length 500)
    (mkContent_length 2000)]
  rfl

/-- C5 (amended): on Scenario A's input, `chunk_files` returns two chunks:
first the priority chunk holding `README.md` alone with `total_size = 500`,
then the regular chunk holding `src/app.py` alone with `total_size = 2000`. -/
theorem scenarioA_two_chunks (cr ca : String) (hr : cr.length = 500)
    (ha : ca.length = 2000) :
    chunk_files [⟨"README.md", cr, ".md"⟩, ⟨"src/app.py", ca, ".py"⟩] 1000000 =
      [⟨[⟨"README.md", cr, ".md"⟩], 500⟩, ⟨[⟨"src/app.py", ca, ".py"⟩], 2000⟩] :=
  scenarioA_eval cr ca hr ha

theorem scenarioA_two_chunks_witness :
    (mkContent 500).length = 500 ∧ (mkContent 2000).length = 2000 ∧
      chunk_files [⟨"README.md", mkContent 500, ".md"⟩,
          ⟨"src/app.py", mkContent 2000, ".py"⟩] 1000000 =
        [⟨[⟨"README.md", mkContent 500, ".md"⟩], 500⟩,
          ⟨[⟨"src/app.py", mkContent 2000, ".py"⟩], 2000⟩] :=
  ⟨mkContent_length 500, mkContent_length 2000,
    scenarioA_two_chunks (mkContent 500) (mkContent 2000) (mkContent_length 500)
      (mkContent_length 2000)⟩

/-- C6: on Scenario B's input — three regular 60,000-byte files under `a/`,
`b/` and `c/` with target 100,000 — `chunk_files` returns three chunks of one
file each, in the order of the directory groups, exactly as the spec's
step-by-step trace says (and not the "two chunks" the same spec sentence
begins with). -/
theorem scenarioB_three_chunks (c1 c2 c3 : String) (h1 : c1.length = 60000)
    (h2 : c2.length = 60000) (h3 : c3.length = 60000) :
    chunk_files [⟨"a/x.py", c1, ".py"⟩, ⟨"b/y.py", c2, ".py"⟩,
        ⟨"c/z.py", c3, ".py"⟩] 100000 =
      [⟨[⟨"a/x.py", c1, ".py"⟩], 60000⟩, ⟨[⟨"b/y.py", c2, ".py"⟩], 60000⟩,
        ⟨[⟨"c/z.py", c3, ".py"⟩], 60000⟩] := by
  have hp1 : is_priority_path "a/x.py" = false := by decide
  have hp2 : is_priority_path "b/y.py" = false := by decide
  have hp3 : is_priority_path "c/z.py" = false := by decide
  have hg1 : get_directory_group "a/x.py" = "a" := by decide
  have hg2 : get_directory_group "b/y.py" = "b" := by decide
  have hg3 : get_directory_group "c/z.py" = "c" := by decide
  have l1 : strLt "b" "a" = false := by decide
  have l2 : strLt "c" "a" = false := by decide
  have l3 : strLt "c" "b" = false := by decide
  simp [chunk_files, is_priority_file, hp1, hp2, hp3, hg1, hg2, hg3, List.filter,
    packPriority, priorityStep, Chunk.add_file, emptyChunk, orderedRegulars, dedupKeys,
    sortKeys, insertKey, sortByPath, insertByPath, regularStep, h1, h2, h3, l1, l2, l3]

theorem scenarioB_three_chunks_witness :
    (mkContent 60000).length = 60000 ∧
      chunk_files [⟨"a/x.py", mkContent 60000, ".py"⟩,
          ⟨"b/y.py", mkContent 60000, ".py"⟩, ⟨"c/z.py", mkContent 60000, ".py"⟩] 100000 =
        [⟨[⟨"a/x.py", mkContent 60000, ".py"⟩], 60000⟩,
          ⟨[⟨"b/y.py", mkContent 60000, ".py"⟩], 60000⟩,
          ⟨[⟨"c/z.py", mkContent 60000, ".py"⟩], 60000⟩] :=
  ⟨mkContent_length 60000,
    scenarioB_three_chunks (mkContent 60000) (mkContent 60000) (mkContent 60000)
      (mkContent_length 60000) (mkContent_length 60000) (mkContent_length 60000)⟩

/-- C7 (counterexample): at `target_size = 0` (non-positive) `chunk_files`
does not reject the value: it proceeds and partitions the input normally,
returning the file in a singleton chunk. The source has no validation of
`target_size` at all. -/
theorem chunk_files_no_reject_at_zero :
    chunk_files [⟨"a.py", "x", ".py"⟩] 0 = [⟨[⟨"a.py", "x", ".py"⟩], 1⟩] := by rfl

/-- C7 (amended): `chunk_files` performs no validation of `target_size`: for
every non-positive target it still terminates normally and partitions the
whole input — the files across the returned chunks are exactly the input
files (this layer never rejects a size parameter, matching §4.1's failure
semantics rather than §7's fail-fast description). -/
theorem chunk_files_accepts_nonpositive_target (files : List RepoFile)
    (target_size : Int) (h : target_size ≤ 0) :
    ((chunk_files files target_size).flatMap Chunk.files).Perm files :=
  chunk_files_perm files target_size

theorem chunk_files_accepts_nonpositive_target_witness :
    (0 : Int) ≤ 0 ∧
      ((chunk_files [⟨"a.py", "x", ".py"⟩] 0).flatMap Chunk.files).Perm
        [⟨"a.py", "x", ".py"⟩] :=
  ⟨by decide, chunk_files_accepts_nonpositive_target [⟨"a.py", "x", ".py"⟩] 0 (by decide)⟩

/-- C8 (counterexample): for the path `"src/main.py"` the last path segment
is `"main.py"`, which is in the entry-point name set, yet the source's
entry-point clause — `f.path in (...)`, an exact full-path comparison — is
false, and the file is not classified as priority at all. -/
theorem entry_clause_path_mismatch :
    entryPointClause "src/main.py" = false ∧
      entryPointClauseSpec "src/main.py" = true ∧
      is_priority_file ⟨"src/main.py", "x", ".py"⟩ = false := by decide

/-- C8 (amended): the entry-point clause compares the full path, not the last
segment, against the entry-point names; it agrees with the filename-based
reading exactly on paths with no directory component (where the full path is
the filename). -/
theorem entry_clause_matches_single_segment (p : String) (h : splitPath p = [p]) :
    entryPointClause p = entryPointClauseSpec p := by
  unfold entryPointClauseSpec filenameOf
  rw [h]
  rfl

theorem entry_clause_matches_single_segment_witness :
    splitPath "main.py" = ["main.py"] ∧
      entryPointClause "main.py" = entryPointClauseSpec "main.py" :=
  ⟨by decide, entry_clause_matches_single_segment "main.py" (by decide)⟩

/-- C10: for every non-positive target size and every input whose files all
have positive content length, `chunk_files` terminates normally and returns
one singleton chunk per file — the priority files' chunks first in input
order, then the regular files' chunks in group-sorted order — and the files
so chunked are a permutation of the input, with no empty chunk. -/
theorem chunk_files_degrades_to_singletons (files : List RepoFile)
    (target_size : Int) (ht : target_size ≤ 0)
    (hpos : ∀ f ∈ files, 0 < f.content.length) :
    chunk_files files target_size =
      (files.filter is_priority_file ++
        orderedRegulars (files.filter fun f => !is_priority_file f)).map singletonChunk ∧
      (files.filter is_priority_file ++
        orderedRegulars (files.filter fun f => !is_priority_file f)).Perm files := by
  constructor
  · rw [chunk_files_eq, List.map_append,
      packPriority_neg target_size ht _ (fun f hf => hpos f (List.mem_filter.mp hf).1),
      packRegular_neg target_size ht _ (fun f hf =>
        hpos f (List.mem_filter.mp (((orderedRegulars_perm _).mem_iff).mp hf)).1)]
  · exact ((orderedRegulars_perm _).append_left _).trans (List.filter_append_perm _ files)

theorem chunk_files_degrades_to_singletons_witness :
    (0 : Int) ≤ 0 ∧
      (∀ f ∈ ([⟨"README.md", "r", ".md"⟩, ⟨"b.py", "x", ".py"⟩] : List RepoFile),
        0 < f.content.length) ∧
      (chunk_files [⟨"README.md", "r", ".md"⟩, ⟨"b.py", "x", ".py"⟩] 0 =
        (([⟨"README.md", "r", ".md"⟩, ⟨"b.py", "x", ".py"⟩] : List RepoFile).filter
            is_priority_file ++
          orderedRegulars (([⟨"README.md", "r", ".md"⟩, ⟨"b.py", "x", ".py"⟩] :
            List RepoFile).filter fun f => !is_priority_file f)).map singletonChunk ∧
        (([⟨"README.md", "r", ".md"⟩, ⟨"b.py", "x", ".py"⟩] : List RepoFile).filter
            is_priority_file ++
          orderedRegulars (([⟨"README.md", "r", ".md"⟩, ⟨"b.py", "x", ".py"⟩] :
            List RepoFile).filter fun f => !is_priority_file f)).Perm
          [⟨"README.md", "r", ".md"⟩, ⟨"b.py", "x", ".py"⟩]) :=
  ⟨by decide, by decide,
    chunk_files_degrades_to_singletons [⟨"README.md", "r", ".md"⟩, ⟨"b.py", "x", ".py"⟩] 0
      (by decide) (by decide)⟩
